import Mathlib

/-!
Verification of the gitpow Repository Introspection & Diff Engine.

This file gives a shallow embedding, in Lean 4, of the pure computational
core of the engine: the porcelain-status parsing and conflict classification
(src-tauri/src/commands/conflicts.rs, staging.rs), the hunk parser and the
commit-relative diff synthesis (src-tauri/src/commands/diff.rs,
src/git/repository.rs), the branch ordering and refs fingerprint of
get_branch_info (src/git/repository.rs), the history walker's
degrade-gracefully policy (get_commits / get_commits_local), and the
effect traces of the mutating operations (resolve_conflict, stage).

External effects (running git, the filesystem) are modelled by explicit
oracle parameters and by traces of emitted filesystem/git operations, so
that every definition is executable and every property is provable or
refutable on concrete inputs.
-/

set_option maxHeartbeats 1000000

namespace GitPow

/-! ### String helpers

Rust's `str::split`, `str::trim`, `str::trim_end` and byte slicing are
modelled at character level over `String.data` (the git output handled by
the engine is ASCII, where byte and character indexing agree and Unicode
white-space coincides with ASCII white-space).  The helpers are written as
structural recursions over `List Char` so that every definition reduces on
concrete inputs. -/

/-- ASCII white-space test matching Rust's `char::is_whitespace` on the
characters that occur in git porcelain output. -/
def isWS (c : Char) : Bool :=
  c == ' ' || c == '\t' || c == '\n' || c == '\r'

/-- Remove trailing white-space, modelling Rust `str::trim_end`. -/
def trimEndChars (l : List Char) : List Char :=
  (l.reverse.dropWhile isWS).reverse

/-- Remove leading and trailing white-space, modelling Rust `str::trim`. -/
def trimChars (l : List Char) : List Char :=
  trimEndChars (l.dropWhile isWS)

/-- Split a character list on a single character, modelling Rust
`str::split(c)` (and `String.splitOn` for a one-character pattern): an empty
input yields one empty piece, and every occurrence of the separator starts a
new piece. -/
def splitCharList (c : Char) : List Char → List (List Char)
  | [] => [[]]
  | x :: xs =>
    if x == c then [] :: splitCharList c xs
    else
      match splitCharList c xs with
      | [] => [[x]]
      | r :: rs => (x :: r) :: rs

/-- Split a string on a single character, returning strings. -/
def splitChar (c : Char) (s : String) : List String :=
  (splitCharList c s.data).map String.mk

/-- Split a character list on the four-character separator " -> ", modelling
Rust `str::split(" -> ")` (leftmost, non-overlapping matches).  A string
contains " -> " iff this split yields more than one piece. -/
def splitArrow : List Char → List (List Char)
  | ' ' :: '-' :: '>' :: ' ' :: rest => [] :: splitArrow rest
  | x :: rest =>
    match splitArrow rest with
    | [] => [[x]]
    | r :: rs => (x :: r) :: rs
  | [] => [[]]

/-- Arrow split on strings. -/
def splitArrowStr (s : String) : List String :=
  (splitArrow s.data).map String.mk

/-! ### Conflict classifier (src-tauri/src/commands/conflicts.rs, get_conflicts) -/

/-- One conflicted file as reported by get_conflicts; `ctype` embeds the Rust
field `r#type` (always "both-modified" in the source). -/
structure ConflictFile where
  path : String
  ctype : String
  deriving DecidableEq

/-- Response shape of get_conflicts. -/
structure ConflictsResponse where
  files : List ConflictFile
  has_conflicts : Bool
  deriving DecidableEq

/-- The two-character conflict predicate of get_conflicts (conflicts.rs lines
62-69), transcribed disjunct by disjunct. -/
def isConflict (status1 status2 : Char) : Bool :=
  (status1 == 'A' && status2 == 'A')
  || status1 == 'U'
  || status2 == 'U'
  || (status1 == 'D' && status2 == 'D')
  || (status1 == 'A' && status2 == 'U')
  || (status1 == 'U' && status2 == 'A')
  || (status1 == 'D' && status2 == 'U')
  || (status1 == 'U' && status2 == 'D')

/-- Per-line body of the get_conflicts loop (conflicts.rs lines 53-88): trim
the line, skip lines shorter than 3 characters, read the two status
characters, and on a conflict take the path from character index 3 on,
resolving rename-arrow notation to the new path.  Rust's byte indexing and
`contains(" -> ")` are modelled at character level via `List.drop` and
`String.splitOn` (equivalent on the ASCII status lines git emits; a string
contains the separator iff `splitOn` yields more than one part). -/
def conflictFilesOfLine (rawLine : String) : List ConflictFile :=
  let line := trimChars rawLine.data
  if line.length < 3 then []
  else
    let status1 := line.getD 0 ' '
    let status2 := line.getD 1 ' '
    if isConflict status1 status2 then
      let filePath := line.drop 3
      let parts := splitArrow filePath
      if 1 < parts.length then
        if parts.length = 2 then
          [⟨String.mk (parts.getD 1 []), "both-modified"⟩]
        else []
      else [⟨String.mk filePath, "both-modified"⟩]
    else []

/-- get_conflicts (conflicts.rs lines 40-94) applied to the captured
`git status --porcelain` stdout: split on newlines, classify each line, and
set `has_conflicts` to the non-emptiness of the collected file list. -/
def getConflicts (statusOut : String) : ConflictsResponse :=
  let files := ((splitChar '\n' statusOut).map conflictFilesOfLine).flatten
  { files := files, has_conflicts := !files.isEmpty }

/-! ### Status parser (src-tauri/src/commands/staging.rs, get_status) -/

/-- One status entry produced by get_status; `ftype` embeds the Rust field
`r#type`. -/
structure StatusFile where
  path : String
  old_path : Option String
  status : String
  staged : Bool
  unstaged : Bool
  ftype : String
  deriving DecidableEq

/-- Per-line body of the get_status loop (staging.rs lines 65-121): trim only
trailing whitespace, skip empty or short lines, compute `staged`/`unstaged`
from the two status characters, take the path from character index 3 on
(both branches of the source's index computation yield `&line[3..]` since
the length guard ensures at least 4 characters), and classify the kind. -/
def statusFileOfLine (rawLine : String) : Option StatusFile :=
  let line := trimEndChars rawLine.data
  if line.isEmpty || line.length < 4 then none
  else
    let c0 := line.getD 0 ' '
    let c1 := line.getD 1 ' '
    let staged := !(c0 == ' ') && !(c0 == '?')
    let unstaged := !(c1 == ' ') && !(c1 == '?')
    let status := String.mk [c0, c1]
    let filePath := line.drop 3
    let parts := splitArrow filePath
    if 1 < parts.length then
      if parts.length = 2 then
        some { path := String.mk (parts.getD 1 []),
               old_path := some (String.mk (parts.getD 0 [])),
               status := status, staged := staged, unstaged := unstaged,
               ftype := "renamed" }
      else none
    else
      let ftype :=
        if [c0, c1].contains 'A' then "added"
        else if [c0, c1].contains 'D' then "deleted"
        else if [c0, c1].contains '?' then "untracked"
        else "modified"
      some { path := String.mk filePath, old_path := none, status := status,
             staged := staged, unstaged := unstaged, ftype := ftype }

/-- Response shape of get_status. -/
structure StatusResponse where
  files : List StatusFile
  deriving DecidableEq

/-- get_status (staging.rs lines 52-124) applied to the captured
`git status --porcelain` stdout. -/
def getStatus (statusOut : String) : StatusResponse :=
  { files := (splitChar '\n' statusOut).filterMap statusFileOfLine }

/-! ### Filesystem and git effect traces

The mutating operations resolve_conflict (conflicts.rs) and stage
(staging.rs) interleave filesystem writes and git subprocess calls.  They
are embedded as pure functions from their inputs plus an environment (the
success/failure of each external step and the captured diff output) to the
ordered trace of external operations attempted plus the Rust function's
`Result`. -/

/-- One external operation attempted by a mutating command. -/
inductive FsOp where
  | createDirAll (path : String)
  | writeFile (path content : String)
  | gitAdd (path : String)
  | gitApplyCached (patchPath : String)
  | removeFile (path : String)
  deriving DecidableEq

/-- Parent directory of a slash-joined path: everything before the last
slash, modelling Rust `Path::parent` on the joined paths the engine builds
(which always contain a slash). -/
def parentDir (p : String) : String :=
  String.mk (((p.data.reverse.dropWhile (fun c => !(c == '/'))).drop 1).reverse)

/-- Success or failure of the external steps of resolve_conflict. -/
structure FsEnv where
  mkdirOk : Bool
  writeOk : Bool
  addOk : Bool
  deriving DecidableEq

/-- resolve_conflict (conflicts.rs lines 138-162): reject an empty path or
empty content before any external operation; otherwise create the parent
directory, write the caller-supplied content to the joined working-tree
path, then stage that exact path, propagating the first failure. -/
def resolveConflict (repoPath path content : String) (env : FsEnv) :
    List FsOp × Except String Unit :=
  if path == "" || content == "" then ([], .error "path and content required")
  else
    let fullPath := repoPath ++ "/" ++ path
    let t1 : List FsOp := [.createDirAll (parentDir fullPath)]
    if !env.mkdirOk then (t1, .error "Failed to create directory")
    else
      let t2 := t1 ++ [.writeFile fullPath content]
      if !env.writeOk then (t2, .error "Failed to write file")
      else
        let t3 := t2 ++ [.gitAdd path]
        if !env.addOk then (t3, .error "Failed to stage file")
        else (t3, .ok ())

/-- Character-list test for the prefix "@@" used by the hunk scanners. -/
def startsWithAtAt : List Char → Bool
  | '@' :: '@' :: _ => true
  | _ => false

/-- Patch-line selection loop of stage (staging.rs lines 139-153): walk the
newline-split diff output keeping a current in-hunk flag and a running hunk
index; a line starting with "@@" turns the flag on exactly when its index is
in the requested set, and every line is kept iff the flag is on. -/
def buildPatchLines (diffOut : String) (hunks : List Nat) : List (List Char) :=
  let lines := splitCharList '\n' diffOut.data
  (lines.foldl
    (fun acc line =>
      let patch := acc.1
      let inHunk := acc.2.1
      let idx := acc.2.2
      if startsWithAtAt line then
        let inh := hunks.contains idx
        (if inh then patch ++ [line] else patch, inh, idx + 1)
      else
        (if inHunk then patch ++ [line] else patch, inHunk, idx))
    ([], false, 0)).1

/-- Environment for one invocation of stage: the captured stdout of
`git diff -- path` (empty when that command failed, matching
`unwrap_or_default`), and the success of the patch write, the cached apply
and the whole-file `git add`. -/
structure StageEnv where
  diffOut : String
  writeOk : Bool
  applyOk : Bool
  addOk : Bool
  deriving DecidableEq

/-- stage (staging.rs lines 127-180).  With a non-empty requested hunk set,
build the partial patch; when it is non-empty, write it to the scratch file
`.git/tmp-patch-temp` (creating the parent directory, failures of which the
source ignores) and apply it against the index; the scratch file is removed
only after a successful apply, since a failed apply propagates its error
with `?` before the `remove_file` call.  An empty hunk set or empty patch is
a silent no-op.  Without a hunk set, the whole file is staged with
`git add`. -/
def stage (repoPath path : String) (hunksReq : Option (List Nat)) (env : StageEnv) :
    List FsOp × Except String Unit :=
  match hunksReq with
  | some hunks =>
    if !hunks.isEmpty then
      let patchLines := buildPatchLines env.diffOut hunks
      if !patchLines.isEmpty then
        let patchContent := String.mk ((patchLines.intersperse ['\n']).flatten ++ ['\n'])
        let tmpFile := repoPath ++ "/.git/tmp-patch-temp"
        let t1 : List FsOp := [.createDirAll (parentDir tmpFile), .writeFile tmpFile patchContent]
        if !env.writeOk then (t1, .error "Failed to write patch")
        else if !env.applyOk then
          (t1 ++ [.gitApplyCached tmpFile], .error "Failed to apply patch")
        else
          (t1 ++ [.gitApplyCached tmpFile, .removeFile tmpFile], .ok ())
      else ([], .ok ())
    else ([], .ok ())
  | none =>
    if !env.addOk then ([.gitAdd path], .error "Failed to stage file")
    else ([.gitAdd path], .ok ())

/-! ### Textual hunk parser (src-tauri/src/commands/diff.rs, parse_hunks)

The hunk-header regex `^@@ -(\d+)(?:,(\d+))? \+(\d+)(?:,(\d+))? @@` is
embedded as a hand-rolled matcher over character lists (with `\d` read as
an ASCII digit, the only digits appearing in git diff output).  Capture
groups are returned as digit strings; the numeric fields are then obtained
exactly as in the source, `parse::<i32>().ok()` with `unwrap_or` defaults
(0 for the mandatory start groups, 1 for the optional count groups). -/

/-- ASCII digit test for the regex class `\d`. -/
def isDigit (c : Char) : Bool := '0' ≤ c && c ≤ '9'

/-- Longest digit prefix and the remainder, the greedy match of `\d+`. -/
def takeDigits : List Char → List Char × List Char
  | [] => ([], [])
  | c :: cs =>
    if isDigit c then
      let p := takeDigits cs
      (c :: p.1, p.2)
    else ([], c :: cs)

/-- Decimal value of a digit string. -/
def digitsToNat (l : List Char) : Nat :=
  l.foldl (fun acc c => acc * 10 + (c.toNat - '0'.toNat)) 0

/-- Rust `str::parse::<i32>` on a captured digit string: succeeds exactly
when the value fits in a 32-bit signed integer. -/
def parseI32 (l : List Char) : Option Nat :=
  if digitsToNat l < 2 ^ 31 then some (digitsToNat l) else none

/-- Match of the optional regex group `(?:,(\d+))?`: it captures only when a
comma followed by at least one digit is present; otherwise nothing is
consumed (when the comma is present but no digit follows, backtracking in
the source's regex likewise retries from the comma itself). -/
def optCountCapture (r : List Char) : Option (List Char) × List Char :=
  match r with
  | ',' :: rr =>
    let p := takeDigits rr
    if p.1.isEmpty then (none, ',' :: rr) else (some p.1, p.2)
  | _ => (none, r)

/-- Capture groups of the hunk-header regex on one line: old start, optional
old count, new start, optional new count. -/
def hunkHeaderCaptures (l : List Char) :
    Option (List Char × Option (List Char) × List Char × Option (List Char)) :=
  match l with
  | '@' :: '@' :: ' ' :: '-' :: rest =>
    let p1 := takeDigits rest
    if p1.1.isEmpty then none
    else
      let o1 := optCountCapture p1.2
      match o1.2 with
      | ' ' :: '+' :: r3 =>
        let p3 := takeDigits r3
        if p3.1.isEmpty then none
        else
          let o2 := optCountCapture p3.2
          match o2.2 with
          | ' ' :: '@' :: '@' :: _ => some (p1.1, o1.1, p3.1, o2.1)
          | _ => none
      | _ => none
  | _ => none

/-- Parsed hunk record of commands/diff.rs (numeric fields are the
nonnegative parsed values; the source stores them in machine integers whose
overflow is modelled inside `parseI32`). -/
structure DiffHunk where
  old_start : Nat
  old_count : Nat
  new_start : Nat
  new_count : Nat
  lines : List String
  line_start : Nat
  deriving DecidableEq

/-- parse_hunks (diff.rs lines 40-90): scan the newline-split diff text; a
line starting with "@@" seals the current hunk and, if the regex matches,
opens a new one whose numeric fields come from the captures with
`unwrap_or(0)` for the starts and `unwrap_or(1)` for the counts; every
other line is appended to the current hunk's lines; the last hunk is sealed
at end of input. -/
def parseHunks (diffOut : String) : List DiffHunk :=
  let lines := splitCharList '\n' diffOut.data
  let final := lines.enum.foldl
    (fun (acc : List DiffHunk × Option DiffHunk) p =>
      let i := p.1
      let line := p.2
      if startsWithAtAt line then
        let hunks :=
          match acc.2 with
          | some h => acc.1 ++ [h]
          | none => acc.1
        match hunkHeaderCaptures line with
        | some caps =>
          (hunks, some
            { old_start := (parseI32 caps.1).getD 0,
              old_count := ((caps.2.1.bind parseI32).getD 1),
              new_start := (parseI32 caps.2.2.1).getD 0,
              new_count := ((caps.2.2.2.bind parseI32).getD 1),
              lines := [String.mk line],
              line_start := i })
        | none => (hunks, none)
      else
        match acc.2 with
        | some h => (acc.1, some { h with lines := h.lines ++ [String.mk line] })
        | none => (acc.1, none))
    ([], none)
  match final.2 with
  | some h => final.1 ++ [h]
  | none => final.1

/-- Optional count group of a textual hunk header: absent, or a comma
followed by the count's digits. -/
def optCount : Option (List Char) → List Char
  | none => []
  | some l => ',' :: l

/-- A syntactically well-formed hunk header `@@ -S[,C] +S[,C] @@` assembled
from the start digits and the optional count digits. -/
def mkHunkHeader (a : List Char) (oc : Option (List Char)) (b : List Char)
    (nc : Option (List Char)) : List Char :=
  '@' :: '@' :: ' ' :: '-' ::
    (a ++ optCount oc ++ ' ' :: '+' :: (b ++ optCount nc ++ [' ', '@', '@']))

/-! ### Diff synthesis for added files

Two independent code paths produce the commit-relative diff of a file that
is absent in the parent and present in the commit: the structured libgit2
path get_file_diff (src/git/repository.rs lines 691-782, case
`(None, Some(entry))`, which also covers a commit with no parent since the
parent tree is then `None`), counting lines with Rust `str::lines`; and the
textual path get_diff (src-tauri/src/commands/diff.rs lines 93-203),
counting the pieces of `split('\n')` and parsing the synthesized text back
through parse_hunks. -/

/-- Rust `str::lines`: pieces end at `\n` or `\r\n`; the final line ending
is optional, and a final piece without a newline keeps a trailing `\r`. -/
def rustLines (s : String) : List String :=
  let parts := splitCharList '\n' s.data
  let init := parts.dropLast.map
    (fun l => if l.getLast? == some '\r' then l.dropLast else l)
  match parts.getLast? with
  | some last => (if last.isEmpty then init else init ++ [last]).map String.mk
  | none => []

/-- Hunk record of the structured diff engine (repository.rs DiffHunkData);
the `lines` field includes the header line. -/
structure DiffHunkData where
  old_start : Int
  old_count : Int
  new_start : Int
  new_count : Int
  lines : List String
  deriving DecidableEq

/-- File-diff result of the structured engine (repository.rs FileDiff). -/
structure FileDiff where
  diff : String
  hunks : List DiffHunkData
  file_path : String
  deriving DecidableEq

/-- The `(None, Some(entry))` (file added) arm of get_file_diff
(repository.rs lines 711-739): header `--- /dev/null` / `+++ b/<path>`, one
synthesized hunk `@@ -0,0 +1,<n> @@` with `n` the `lines()` count of the
blob content, and every source line prefixed `+`. -/
def getFileDiffAdded (filePath content : String) : FileDiff :=
  let lines := rustLines content
  let lineCount := lines.length
  let header := "@@ -0,0 +1," ++ toString lineCount ++ " @@"
  { diff := "--- /dev/null\n+++ b/" ++ filePath ++ "\n"
      ++ (header ++ "\n")
      ++ String.join (lines.map (fun l => "+" ++ l ++ "\n")),
    hunks := [{ old_start := 0, old_count := 0, new_start := 1,
                new_count := (lineCount : Int),
                lines := header :: lines.map (fun l => "+" ++ l) }],
    file_path := filePath }

/-- Response shape of the textual get_diff command. -/
structure DiffResponse where
  diff : String
  hunks : List DiffHunk
  file_path : String
  deriving DecidableEq

/-- External observations consumed by the ref-relative branch of get_diff:
the (already normalized) result of `git rev-parse ref^` or `none` if it
failed, the two `git cat-file -e` existence checks, the captured `git show`
blob contents (empty on failure, matching `unwrap_or_default`), and the
captured output of `git diff parent ref -- path`. -/
structure GitDiffEnv where
  parentRef : Option String
  inParent : Bool
  inCurrent : Bool
  showCurrent : String
  showParent : String
  diffOut : String

/-- The ref-relative branch of get_diff (diff.rs lines 100-185).  With a
resolvable parent: an added file synthesizes a `--- /dev/null` diff whose
hunk count field is the length of `split('\n')` of the blob (one more than
the line count when the blob ends in a newline), a removed file the
symmetric deletion diff, a modified file uses the textual `git diff`
output, and the text is parsed back through parse_hunks.  Without a parent
(initial commit): a degraded, hunk-less response of `"+ "`-prefixed
split pieces. -/
def getDiffRef (path : String) (env : GitDiffEnv) : DiffResponse :=
  match env.parentRef with
  | some _ =>
    let diffOut :=
      if !env.inParent && env.inCurrent then
        let pieces := splitCharList '\n' env.showCurrent.data
        "--- /dev/null\n+++ b/" ++ path ++ "\n"
          ++ ("@@ -0,0 +1," ++ toString pieces.length ++ " @@\n")
          ++ String.join (pieces.map (fun l => "+" ++ String.mk l ++ "\n"))
      else if env.inParent && !env.inCurrent then
        let pieces := splitCharList '\n' env.showParent.data
        "--- a/" ++ path ++ "\n+++ /dev/null\n"
          ++ ("@@ -1," ++ toString pieces.length ++ " +0,0 @@\n")
          ++ String.join (pieces.map (fun l => "-" ++ String.mk l ++ "\n"))
      else if env.inParent && env.inCurrent then env.diffOut
      else ""
    { diff := diffOut, hunks := parseHunks diffOut, file_path := path }
  | none =>
    let pieces := splitCharList '\n' env.showCurrent.data
    { diff := String.mk (((pieces.map (fun l => '+' :: ' ' :: l)).intersperse ['\n']).flatten),
      hunks := [], file_path := path }

/-! ### Branch ordering and refs fingerprint (src/git/repository.rs, get_branch_info)

get_branch_info sorts the collected branch names with the comparator
"rank, then `str::cmp`" (lines 241-257), removes adjacent duplicates with
`Vec::dedup` (line 258), resolves each name once, and feeds the
`(name, resolved id)` pairs in that canonical order into a DefaultHasher
(lines 351-362).  Rust's `Hash for str` writes the UTF-8 bytes of the
string followed by a 0xFF terminator byte; since 0xFF never occurs inside
UTF-8-encoded content, that byte stream is faithfully represented here as a
list of tokens `Option Char` (`some c` for a content character, `none` for
the terminator), and the fingerprint is modelled as that hasher input
stream: the code's 64-bit hash is a function of it, equal streams giving
equal fingerprints and distinct streams distinct fingerprints up to SipHash
collisions.  Rust's byte-wise `str::cmp` coincides with code-point
lexicographic order because UTF-8 preserves code-point order.  Since the
comparator is a total order, the sorted result is the unique sorted
rearrangement, modelled by insertion sort. -/

/-- Lexicographic order on character lists, modelling Rust `str::cmp`'s
less-or-equal. -/
def lexLe : List Char → List Char → Bool
  | [], _ => true
  | _ :: _, [] => false
  | x :: xs, y :: ys => if x = y then lexLe xs ys else decide (x < y)

/-- The fixed rank table of the branch comparator (repository.rs lines
242-248). -/
def branchRank (name : String) : Nat :=
  match name with
  | "main" => 0
  | "master" => 1
  | "develop" => 2
  | _ => 10

/-- The branch comparator: rank first, ties broken lexicographically. -/
def branchLe (a b : String) : Bool :=
  if branchRank a = branchRank b then lexLe a.data b.data
  else decide (branchRank a < branchRank b)

/-- The branch comparator as a relation. -/
def bLE (a b : String) : Prop := branchLe a b = true

instance : DecidableRel bLE :=
  fun a b => inferInstanceAs (Decidable (branchLe a b = true))

instance : IsTotal String bLE where
  total := by
    have hl : ∀ x y : List Char, lexLe x y = true ∨ lexLe y x = true := by
      intro x
      induction x with
      | nil => intro y; left; rfl
      | cons a xs ih =>
        intro y
        cases y with
        | nil => right; rfl
        | cons b ys =>
          by_cases hab : a = b
          · subst hab
            rcases ih ys with h | h
            · left; simpa [lexLe] using h
            · right; simpa [lexLe] using h
          · have hba : ¬ b = a := fun e => hab e.symm
            rcases lt_or_gt_of_ne hab with h | h
            · left; simp [lexLe, hab, h]
            · right; simp [lexLe, hba, h]
    intro a b
    unfold bLE branchLe
    by_cases hr : branchRank a = branchRank b
    · simpa [hr] using hl a.data b.data
    · have hr2 : ¬ branchRank b = branchRank a := fun e => hr e.symm
      simp only [hr, hr2, if_false, decide_eq_true_eq]
      omega

instance : IsTrans String bLE where
  trans := by
    have hl : ∀ x y z : List Char,
        lexLe x y = true → lexLe y z = true → lexLe x z = true := by
      intro x
      induction x with
      | nil => intro y z _ _; rfl
      | cons a xs ih =>
        intro y z hxy hyz
        cases y with
        | nil => simp [lexLe] at hxy
        | cons b ys =>
          cases z with
          | nil => simp [lexLe] at hyz
          | cons c zs =>
            by_cases hab : a = b <;> by_cases hbc : b = c
            · subst hab; subst hbc
              simp only [lexLe, if_pos rfl] at hxy hyz ⊢
              exact ih ys zs hxy hyz
            · subst hab
              simp [lexLe, hbc] at hyz ⊢
              exact hyz
            · subst hbc
              simp [lexLe, hab] at hxy ⊢
              exact hxy
            · simp [lexLe, hab] at hxy
              simp [lexLe, hbc] at hyz
              have hac : a < c := lt_trans hxy hyz
              simp [lexLe, ne_of_lt hac, hac]
    intro a b c hab hbc
    unfold bLE branchLe at hab hbc ⊢
    by_cases h1 : branchRank a = branchRank b <;>
      by_cases h2 : branchRank b = branchRank c
    · rw [if_pos h1] at hab
      rw [if_pos h2] at hbc
      rw [if_pos (h1.trans h2)]
      exact hl a.data b.data c.data hab hbc
    · rw [if_pos h1] at hab
      rw [if_neg h2, decide_eq_true_eq] at hbc
      rw [if_neg (by omega : ¬ branchRank a = branchRank c), decide_eq_true_eq]
      omega
    · rw [if_neg h1, decide_eq_true_eq] at hab
      rw [if_pos h2] at hbc
      rw [if_neg (by omega : ¬ branchRank a = branchRank c), decide_eq_true_eq]
      omega
    · rw [if_neg h1, decide_eq_true_eq] at hab
      rw [if_neg h2, decide_eq_true_eq] at hbc
      rw [if_neg (by omega : ¬ branchRank a = branchRank c), decide_eq_true_eq]
      omega

instance : IsAntisymm String bLE where
  antisymm := by
    have hl : ∀ x y : List Char, lexLe x y = true → lexLe y x = true → x = y := by
      intro x
      induction x with
      | nil =>
        intro y _ hyx
        cases y with
        | nil => rfl
        | cons b ys => simp [lexLe] at hyx
      | cons a xs ih =>
        intro y hxy hyx
        cases y with
        | nil => simp [lexLe] at hxy
        | cons b ys =>
          by_cases hab : a = b
          · subst hab
            simp only [lexLe, if_pos rfl] at hxy hyx
            rw [ih ys hxy hyx]
          · have hba : ¬ b = a := fun e => hab e.symm
            simp [lexLe, hab] at hxy
            simp [lexLe, hba] at hyx
            exact absurd hxy (not_lt_of_gt hyx)
    intro a b hab hba
    unfold bLE branchLe at hab hba
    by_cases hr : branchRank a = branchRank b
    · have hr2 : branchRank b = branchRank a := hr.symm
      simp only [hr, if_pos rfl] at hab
      simp only [hr2, if_pos rfl] at hba
      have hd := hl a.data b.data hab hba
      cases a; cases b
      exact congrArg String.mk hd
    · have hr2 : ¬ branchRank b = branchRank a := fun e => hr e.symm
      simp only [if_neg hr, decide_eq_true_eq] at hab
      simp only [if_neg hr2, decide_eq_true_eq] at hba
      omega

/-- The sort of get_branch_info (lines 241-257): since the comparator is a
total order, Rust's stable sort produces the unique `bLE`-sorted
rearrangement, modelled by insertion sort. -/
def sortBranches (l : List String) : List String := List.insertionSort bLE l

/-- `Vec::dedup` (line 258): remove adjacent duplicates. -/
def dedupAdjacent : List String → List String
  | [] => []
  | [x] => [x]
  | x :: y :: rest =>
    if x = y then dedupAdjacent (y :: rest) else x :: dedupAdjacent (y :: rest)

/-- The `branches` field of get_branch_info: collected names sorted by the
rank comparator, then deduplicated. -/
def branchesOf (names : List String) : List String := dedupAdjacent (sortBranches names)

/-- Hasher contribution of one string: its characters, then the 0xFF
terminator token that `Hash for str` writes. -/
def encodeStr (s : String) : List (Option Char) := s.data.map some ++ [none]

/-- Hasher contribution of one `(name, resolved id)` pair (lines 355-360):
the name is always hashed; the id string is hashed only when resolution
succeeded. -/
def encodePair : String × Option String → List (Option Char)
  | (name, some oid) => encodeStr name ++ encodeStr oid
  | (name, none) => encodeStr name

/-- The DefaultHasher input stream over a pair list. -/
def refsHashStream (pairs : List (String × Option String)) : List (Option Char) :=
  (pairs.map encodePair).flatten

/-- The `(name, resolved id)` pairs of get_branch_info in hashing order:
the sorted, deduplicated branch names, each paired with its single
`revparse_single` resolution. -/
def branchPairs (names : List String) (resolve : String → Option String) :
    List (String × Option String) :=
  (branchesOf names).map (fun n => (n, resolve n))

/-- The refs fingerprint of get_branch_info, modelled as the hasher input
stream determined by the branch list and the resolution function. -/
def refsFingerprint (names : List String) (resolve : String → Option String) :
    List (Option Char) :=
  refsHashStream (branchPairs names resolve)

/-! ### Commit history walker (src/git/repository.rs)

The walker's interaction with libgit2 is abstracted by an oracle: revision
resolution with its error code, the revwalk sequence from a resolved oid
(already in topological/time order as produced by the library), and the
branch-tip table used for decoration.  Only the resolution policy and the
decoration are the engine's own logic. -/

/-- Outcome classes of `revparse_single` distinguished by get_commits. -/
inductive RevErr where
  | unbornBranch
  | notFound
  | other (msg : String)
  deriving DecidableEq

/-- Raw data of one walked commit as obtained from the library. -/
structure RawCommit where
  sha : String
  author : String
  email : String
  date : String
  message : String
  parents : List String
  deriving DecidableEq

/-- Projected commit record (the always-None UI decoration fields of the
Rust struct are omitted). -/
structure Commit where
  sha : String
  author : String
  email : String
  date : String
  message : String
  parents : List String
  is_merge : Bool
  branches : List String
  deriving DecidableEq

/-- Oracle for one repository: revision resolution, the revwalk, and the
branch-tip table. -/
structure RepoOracle where
  revparse : String → Except RevErr String
  walk : String → List RawCommit
  branchTips : List (String × String)

/-- Branches whose tip is the given sha, from the tip table (the
sha_branches map of get_commits). -/
def commitBranches (tips : List (String × String)) (sha : String) : List String :=
  (tips.filter (fun p => p.2 == sha)).map (fun p => p.1)

/-- get_commits (repository.rs lines 406-478), global mode: empty revision
expression means "HEAD"; an unborn or not-found resolution yields an empty
list; otherwise walk at most `limit` commits and decorate each with the
branches tipped at it. -/
def getCommits (repo : RepoOracle) (branchName : String) (limit : Nat) :
    Except String (List Commit) :=
  let spec := if branchName = "" then "HEAD" else branchName
  match repo.revparse spec with
  | .error .unbornBranch => .ok []
  | .error .notFound => .ok []
  | .error (.other msg) => .error msg
  | .ok oid =>
    .ok (((repo.walk oid).take limit).map (fun c =>
      { sha := c.sha, author := c.author, email := c.email, date := c.date,
        message := c.message, parents := c.parents,
        is_merge := decide (c.parents.length > 1),
        branches := commitBranches repo.branchTips c.sha }))

/-- get_commits_local (repository.rs lines 484-534), local mode: same
resolution policy, but every walked commit is decorated with the single
input revision expression. -/
def getCommitsLocal (repo : RepoOracle) (branchName : String) (limit : Nat) :
    Except String (List Commit) :=
  let spec := if branchName = "" then "HEAD" else branchName
  match repo.revparse spec with
  | .error .unbornBranch => .ok []
  | .error .notFound => .ok []
  | .error (.other msg) => .error msg
  | .ok oid =>
    .ok (((repo.walk oid).take limit).map (fun c =>
      { sha := c.sha, author := c.author, email := c.email, date := c.date,
        message := c.message, parents := c.parents,
        is_merge := decide (c.parents.length > 1),
        branches := [spec] }))

/-! ### Theorems for claims C4, C9, C10 -/

/-- C4: for every two-character porcelain status line, get_conflicts
classifies the path as conflicted iff both characters are A, either
character is U, or both characters are D (the explicitly listed pairs
{A,U},{U,A},{D,U},{U,D} being subsumed by "either is U"); concretely,
"UU conflicted.txt" is conflicted and "M  clean.txt" is not. -/
theorem isConflict_iff :
    (∀ c1 c2 : Char, isConflict c1 c2 = true ↔
      ((c1 = 'A' ∧ c2 = 'A') ∨ c1 = 'U' ∨ c2 = 'U' ∨ (c1 = 'D' ∧ c2 = 'D')))
    ∧ conflictFilesOfLine "UU conflicted.txt" = [⟨"conflicted.txt", "both-modified"⟩]
    ∧ conflictFilesOfLine "M  clean.txt" = [] := by
  refine ⟨fun c1 c2 => ?_, by decide, by decide⟩
  simp only [isConflict, Bool.or_eq_true, Bool.and_eq_true, beq_iff_eq]
  tauto

/-- C9: for every porcelain status output, the response of get_conflicts
has `has_conflicts = true` iff its `files` list is non-empty. -/
theorem getConflicts_flag_iff_files_nonempty (statusOut : String) :
    (getConflicts statusOut).has_conflicts = true ↔
      (getConflicts statusOut).files ≠ [] := by
  unfold getConflicts
  cases h : ((splitChar '\n' statusOut).map conflictFilesOfLine).flatten <;> simp [h]

/-- C10: every StatusFile produced by get_status has `staged` true iff the
first status character is neither space nor question mark, and `unstaged`
true iff the second is neither; in particular an untracked line
"?? foo.txt" yields `staged = false`, `unstaged = false`, kind "untracked". -/
theorem getStatus_staged_unstaged :
    (∀ statusOut : String, ∀ f ∈ (getStatus statusOut).files,
      (f.staged = true ↔ (f.status.data.getD 0 ' ' ≠ ' ' ∧ f.status.data.getD 0 ' ' ≠ '?'))
      ∧ (f.unstaged = true ↔ (f.status.data.getD 1 ' ' ≠ ' ' ∧ f.status.data.getD 1 ' ' ≠ '?')))
    ∧ getStatus "?? foo.txt" =
        { files := [{ path := "foo.txt", old_path := none, status := "??",
                      staged := false, unstaged := false, ftype := "untracked" }] } := by
  constructor
  · intro statusOut f hf
    simp only [getStatus, List.mem_filterMap] at hf
    obtain ⟨line, -, hline⟩ := hf
    unfold statusFileOfLine at hline
    simp only at hline
    split at hline
    · exact absurd hline (by simp)
    · split at hline
      · split at hline
        · injection hline with h
          subst h
          simp only [List.getD_cons_zero, List.getD_cons_succ]
          constructor <;>
            simp [Bool.and_eq_true, Bool.not_eq_true', beq_eq_false_iff_ne]
        · exact absurd hline (by simp)
      · injection hline with h
        subst h
        simp only [List.getD_cons_zero, List.getD_cons_succ]
        constructor <;>
          simp [Bool.and_eq_true, Bool.not_eq_true', beq_eq_false_iff_ne]
  · decide

/-- Concrete instantiation of the universally quantified part of C10 at the
untracked line "?? foo.txt". -/
theorem getStatus_staged_unstaged_witness :
    (({ path := "foo.txt", old_path := none, status := "??", staged := false,
        unstaged := false, ftype := "untracked" } : StatusFile).staged = true ↔
      (("??" : String).data.getD 0 ' ' ≠ ' ' ∧ ("??" : String).data.getD 0 ' ' ≠ '?')) := by
  have h := getStatus_staged_unstaged.1 "?? foo.txt"
      { path := "foo.txt", old_path := none, status := "??", staged := false,
        unstaged := false, ftype := "untracked" }
      (by rw [getStatus_staged_unstaged.2]; exact List.mem_singleton.mpr rfl)
  exact h.1

/-! ### Theorems for claims C5, C6, C7 -/

/-- C5: a resolve_conflict request with an empty path or empty content is
rejected with an error before any external operation (empty trace: no
directory created, no file written, no staging); with non-empty path and
content and successful external steps, the content is written to the joined
working-tree path and that path is then staged, in that order. -/
theorem resolveConflict_validation :
    (∀ (repoPath path content : String) (env : FsEnv), path = "" ∨ content = "" →
      resolveConflict repoPath path content env = ([], .error "path and content required"))
    ∧ (∀ (repoPath path content : String) (env : FsEnv), path ≠ "" → content ≠ "" →
        env.mkdirOk = true → env.writeOk = true → env.addOk = true →
        resolveConflict repoPath path content env =
          ([.createDirAll (parentDir (repoPath ++ "/" ++ path)),
            .writeFile (repoPath ++ "/" ++ path) content,
            .gitAdd path], .ok ())) := by
  constructor
  · intro repoPath path content env h
    rcases h with h | h <;> simp [resolveConflict, h]
  · intro repoPath path content env hp hc hm hw ha
    simp [resolveConflict, hp, hc, hm, hw, ha]

/-- Concrete instantiation of C5: an empty-content request leaves an empty
trace, and a well-formed request produces exactly the
mkdir/write/stage trace. -/
theorem resolveConflict_validation_witness :
    resolveConflict "repo" "f.txt" "" ⟨true, true, true⟩ =
        ([], .error "path and content required")
    ∧ resolveConflict "repo" "f.txt" "body" ⟨true, true, true⟩ =
        ([.createDirAll "repo", .writeFile "repo/f.txt" "body",
          .gitAdd "f.txt"], .ok ()) := by
  constructor
  · exact resolveConflict_validation.1 "repo" "f.txt" "" ⟨true, true, true⟩ (Or.inr rfl)
  · rw [resolveConflict_validation.2 "repo" "f.txt" "body" ⟨true, true, true⟩
      (by decide) (by decide) rfl rfl rfl]
    rfl

/-- C6 counterexample: a partial staging call that writes the scratch patch
file and whose `git apply --cached` fails returns the apply error without
ever removing the scratch artifact, refuting removal "on every exit path,
regardless of whether applying the patch succeeds or fails". -/
theorem stage_scratch_left_behind_on_apply_failure :
    stage "repo" "f.txt" (some [0])
        { diffOut := "@@ -1 +1 @@\n+x\n", writeOk := true, applyOk := false, addOk := true } =
      ([.createDirAll "repo/.git",
        .writeFile "repo/.git/tmp-patch-temp" "@@ -1 +1 @@\n+x\n\n",
        .gitApplyCached "repo/.git/tmp-patch-temp"],
       .error "Failed to apply patch")
    ∧ FsOp.removeFile "repo/.git/tmp-patch-temp" ∉
        (stage "repo" "f.txt" (some [0])
          { diffOut := "@@ -1 +1 @@\n+x\n", writeOk := true, applyOk := false, addOk := true }).1 := by
  constructor
  · rfl
  · decide

/-- C6 (amended): in a partial staging call, when the scratch patch write
and the cached apply both succeed, the scratch artifact is removed before
the call returns; but when the apply fails, the call propagates the apply
error without removing the scratch file. -/
theorem stage_scratch_removal :
    ∀ (repoPath path : String) (hunks : List Nat) (env : StageEnv),
      env.writeOk = true →
      ((env.applyOk = true →
          ((∃ c, FsOp.writeFile (repoPath ++ "/.git/tmp-patch-temp") c ∈
              (stage repoPath path (some hunks) env).1) →
            FsOp.removeFile (repoPath ++ "/.git/tmp-patch-temp") ∈
              (stage repoPath path (some hunks) env).1))
        ∧ (env.applyOk = false →
            FsOp.removeFile (repoPath ++ "/.git/tmp-patch-temp") ∉
              (stage repoPath path (some hunks) env).1)) := by
  intro repoPath path hunks env hw
  by_cases h1 : hunks.isEmpty
  · constructor
    · intro hap hex
      exfalso
      revert hex
      simp [stage, h1]
    · intro hap
      simp [stage, h1]
  · by_cases h2 : (buildPatchLines env.diffOut hunks).isEmpty
    · constructor
      · intro hap hex
        exfalso
        revert hex
        simp [stage, h1, h2]
      · intro hap
        simp [stage, h1, h2]
    · constructor
      · intro hap hex
        simp [stage, h1, h2, hw, hap]
      · intro hap
        simp [stage, h1, h2, hw, hap]

/-- Concrete instantiation of the amended C6: with a successful apply the
trace contains the removal of the scratch file. -/
theorem stage_scratch_removal_witness :
    FsOp.removeFile "repo/.git/tmp-patch-temp" ∈
      (stage "repo" "f.txt" (some [0])
        { diffOut := "@@ -1 +1 @@\n+x\n", writeOk := true, applyOk := true, addOk := true }).1 :=
  (stage_scratch_removal "repo" "f.txt" [0]
      { diffOut := "@@ -1 +1 @@\n+x\n", writeOk := true, applyOk := true, addOk := true }
      rfl).1 rfl ⟨"@@ -1 +1 @@\n+x\n\n", by decide⟩

/-- C7: for both the global and the local history walker, resolving an
unborn or nonexistent revision yields an empty commit list rather than an
error, and an empty revision expression is treated exactly as "HEAD". -/
theorem getCommits_degrade_gracefully :
    (∀ (repo : RepoOracle) (branchName : String) (limit : Nat),
      (repo.revparse (if branchName = "" then "HEAD" else branchName) = .error .unbornBranch
        ∨ repo.revparse (if branchName = "" then "HEAD" else branchName) = .error .notFound) →
      getCommits repo branchName limit = .ok []
        ∧ getCommitsLocal repo branchName limit = .ok [])
    ∧ (∀ (repo : RepoOracle) (limit : Nat),
        getCommits repo "" limit = getCommits repo "HEAD" limit
          ∧ getCommitsLocal repo "" limit = getCommitsLocal repo "HEAD" limit) := by
  constructor
  · intro repo branchName limit h
    rcases h with h | h <;>
      exact ⟨by simp [getCommits, h], by simp [getCommitsLocal, h]⟩
  · intro repo limit
    exact ⟨rfl, rfl⟩

/-- Concrete instantiation of C7 on a freshly initialized repository whose
every revision resolves as unborn. -/
theorem getCommits_degrade_gracefully_witness :
    getCommits
        { revparse := fun _ => .error .unbornBranch, walk := fun _ => [], branchTips := [] }
        "main" 50 = .ok [] :=
  (getCommits_degrade_gracefully.1
    { revparse := fun _ => .error .unbornBranch, walk := fun _ => [], branchTips := [] }
    "main" 50 (Or.inl rfl)).1

/-! ### Helper lemmas for the diff, parser and branch theorems -/

/-- Concatenation of strings concatenates the underlying character lists. -/
theorem data_append (a b : String) : (a ++ b).data = a.data ++ b.data := by
  cases a; cases b; rfl

/-- String concatenation is associative. -/
theorem strAppend_assoc (a b c : String) : a ++ b ++ c = a ++ (b ++ c) := by
  cases a; cases b; cases c
  exact congrArg String.mk (List.append_assoc _ _ _)

/-- The greedy digit scan consumes exactly a digit prefix that ends at the
first non-digit. -/
theorem takeDigits_append (d : List Char) (c : Char) (r : List Char)
    (hd : ∀ x ∈ d, isDigit x = true) (hc : isDigit c = false) :
    takeDigits (d ++ c :: r) = (d, c :: r) := by
  induction d with
  | nil => simp [takeDigits, hc]
  | cons x xs ih =>
    have hx : isDigit x = true := hd x (List.mem_cons_self x xs)
    have ih2 := ih (fun y hy => hd y (List.mem_cons_of_mem x hy))
    simp [takeDigits, hx, ih2]

/-- Splitting a separator-free list yields that one piece. -/
theorem splitCharList_single (c : Char) (l : List Char)
    (h : ∀ x ∈ l, (x == c) = false) :
    splitCharList c l = [l] := by
  induction l with
  | nil => rfl
  | cons x xs ih =>
    have hx := h x (List.mem_cons_self x xs)
    have ih2 := ih (fun y hy => h y (List.mem_cons_of_mem x hy))
    simp [splitCharList, hx, ih2]

/-- An ASCII digit is not a newline. -/
theorem isDigit_ne_newline {c : Char} (h : isDigit c = true) : (c == '\n') = false := by
  by_cases hc : c = '\n'
  · subst hc; exact absurd h (by decide)
  · exact beq_eq_false_iff_ne.mpr hc

/-- The optional count group matches nothing when a space follows. -/
theorem optCountCapture_space (r : List Char) :
    optCountCapture (' ' :: r) = (none, ' ' :: r) := rfl

/-- The optional count group captures a non-empty digit run after a comma. -/
theorem optCountCapture_comma (l : List Char) (c : Char) (r : List Char)
    (hl : ∀ x ∈ l, isDigit x = true) (hl0 : l ≠ []) (hc : isDigit c = false) :
    optCountCapture (',' :: (l ++ c :: r)) = (some l, c :: r) := by
  simp only [optCountCapture, takeDigits_append l c r hl hc]
  simp [List.isEmpty_eq_true, hl0]

/-- Characters of an assembled hunk header. -/
theorem mem_optCount {x : Char} {o : Option (List Char)} (h : x ∈ optCount o) :
    x = ',' ∨ ∃ l, o = some l ∧ x ∈ l := by
  cases o with
  | none => simp [optCount] at h
  | some l =>
    simp only [optCount, List.mem_cons] at h
    rcases h with rfl | h
    · exact Or.inl rfl
    · exact Or.inr ⟨l, rfl, h⟩

/-- No character of a well-formed assembled hunk header is a newline. -/
theorem mkHunkHeader_no_newline (a b : List Char) (oc nc : Option (List Char))
    (ha : ∀ x ∈ a, isDigit x = true) (hb : ∀ x ∈ b, isDigit x = true)
    (hoc : ∀ l, oc = some l → ∀ x ∈ l, isDigit x = true)
    (hnc : ∀ l, nc = some l → ∀ x ∈ l, isDigit x = true) :
    ∀ x ∈ mkHunkHeader a oc b nc, (x == '\n') = false := by
  intro x hx
  simp only [mkHunkHeader, List.mem_cons, List.mem_append] at hx
  rcases hx with rfl | rfl | rfl | rfl | hx
  · decide
  · decide
  · decide
  · decide
  rcases hx with (hx | hx) | hx
  · exact isDigit_ne_newline (ha x hx)
  · rcases mem_optCount hx with rfl | ⟨l, rfl, hm⟩
    · decide
    · exact isDigit_ne_newline (hoc l rfl x hm)
  rcases hx with rfl | rfl | hx
  · decide
  · decide
  rcases hx with (hx | hx) | hx
  · exact isDigit_ne_newline (hb x hx)
  · rcases mem_optCount hx with rfl | ⟨l, rfl, hm⟩
    · decide
    · exact isDigit_ne_newline (hnc l rfl x hm)
  rcases hx with rfl | rfl | rfl | hx
  · decide
  · decide
  · decide
  · simp at hx

/-- The regex matcher captures the assembled header's groups verbatim. -/
theorem hunkHeaderCaptures_mk (a b : List Char) (oc nc : Option (List Char))
    (ha : ∀ x ∈ a, isDigit x = true) (ha0 : a ≠ [])
    (hb : ∀ x ∈ b, isDigit x = true) (hb0 : b ≠ [])
    (hoc : ∀ l, oc = some l → (∀ x ∈ l, isDigit x = true) ∧ l ≠ [])
    (hnc : ∀ l, nc = some l → (∀ x ∈ l, isDigit x = true) ∧ l ≠ []) :
    hunkHeaderCaptures (mkHunkHeader a oc b nc) = some (a, oc, b, nc) := by
  have hsp : isDigit ' ' = false := by decide
  have hcm : isDigit ',' = false := by decide
  have haE : a.isEmpty = false := by simp [List.isEmpty_eq_false, ha0]
  have hbE : b.isEmpty = false := by simp [List.isEmpty_eq_false, hb0]
  rcases oc with _ | l <;> rcases nc with _ | m
  · have h1 := takeDigits_append a ' ' ('+' :: (b ++ [' ', '@', '@'])) ha hsp
    have h2 := takeDigits_append b ' ' ['@', '@'] hb hsp
    simp only [mkHunkHeader, optCount, List.append_nil, List.nil_append]
    simp only [hunkHeaderCaptures, h1, haE, Bool.false_eq_true, if_false,
      optCountCapture_space, h2, hbE]
  · obtain ⟨hm, hm0⟩ := hnc m rfl
    have h1 := takeDigits_append a ' ' ('+' :: (b ++ ',' :: m ++ [' ', '@', '@'])) ha hsp
    have h2 := takeDigits_append b ',' (m ++ [' ', '@', '@']) hb hcm
    have h3 := optCountCapture_comma m ' ' ['@', '@'] hm hm0 hsp
    simp only [mkHunkHeader, optCount, List.append_nil, List.nil_append, List.cons_append,
      List.append_assoc] at *
    simp only [hunkHeaderCaptures, h1, haE, Bool.false_eq_true, if_false,
      optCountCapture_space, h2, hbE, h3]
  · obtain ⟨hl, hl0⟩ := hoc l rfl
    have h1 := takeDigits_append a ',' (l ++ ' ' :: '+' :: (b ++ [' ', '@', '@'])) ha hcm
    have h2 := optCountCapture_comma l ' ' ('+' :: (b ++ [' ', '@', '@'])) hl hl0 hsp
    have h3 := takeDigits_append b ' ' ['@', '@'] hb hsp
    simp only [mkHunkHeader, optCount, List.append_nil, List.nil_append, List.cons_append,
      List.append_assoc] at *
    simp only [hunkHeaderCaptures, h1, haE, Bool.false_eq_true, if_false, h2, h3, hbE,
      optCountCapture_space]
  · obtain ⟨hl, hl0⟩ := hoc l rfl
    obtain ⟨hm, hm0⟩ := hnc m rfl
    have h1 := takeDigits_append a ',' (l ++ ' ' :: '+' :: (b ++ ',' :: m ++ [' ', '@', '@'])) ha hcm
    have h2 := optCountCapture_comma l ' ' ('+' :: (b ++ ',' :: m ++ [' ', '@', '@'])) hl hl0 hsp
    have h3 := takeDigits_append b ',' (m ++ [' ', '@', '@']) hb hcm
    have h4 := optCountCapture_comma m ' ' ['@', '@'] hm hm0 hsp
    simp only [mkHunkHeader, optCount, List.append_nil, List.nil_append, List.cons_append,
      List.append_assoc] at *
    simp only [hunkHeaderCaptures, h1, haE, Bool.false_eq_true, if_false, h2, h3, hbE, h4]

/-- C8: for every textual hunk header, a count omitted from the header
defaults to 1 in the resulting DiffHunk, while a present count (and the two
mandatory starts) is taken from the header verbatim; stated for every
syntactically well-formed header `@@ -S[,C] +S[,C] @@` whose numbers fit
the source's 32-bit parse. -/
theorem parseHunks_count_defaults :
    ∀ (a b : List Char) (oc nc : Option (List Char)),
      (∀ x ∈ a, isDigit x = true) → a ≠ [] → digitsToNat a < 2 ^ 31 →
      (∀ x ∈ b, isDigit x = true) → b ≠ [] → digitsToNat b < 2 ^ 31 →
      (∀ l, oc = some l → (∀ x ∈ l, isDigit x = true) ∧ l ≠ [] ∧ digitsToNat l < 2 ^ 31) →
      (∀ l, nc = some l → (∀ x ∈ l, isDigit x = true) ∧ l ≠ [] ∧ digitsToNat l < 2 ^ 31) →
      parseHunks (String.mk (mkHunkHeader a oc b nc)) =
        [{ old_start := digitsToNat a,
           old_count := oc.elim 1 digitsToNat,
           new_start := digitsToNat b,
           new_count := nc.elim 1 digitsToNat,
           lines := [String.mk (mkHunkHeader a oc b nc)],
           line_start := 0 }] := by
  intro a b oc nc ha ha0 haB hb hb0 hbB hoc hnc
  have hcap := hunkHeaderCaptures_mk a b oc nc ha ha0 hb hb0
    (fun l hl => ⟨(hoc l hl).1, (hoc l hl).2.1⟩)
    (fun l hl => ⟨(hnc l hl).1, (hnc l hl).2.1⟩)
  have hnl := mkHunkHeader_no_newline a b oc nc ha hb
    (fun l hl => (hoc l hl).1) (fun l hl => (hnc l hl).1)
  have hat : startsWithAtAt (mkHunkHeader a oc b nc) = true := rfl
  unfold parseHunks
  rw [show (String.mk (mkHunkHeader a oc b nc)).data = mkHunkHeader a oc b nc from rfl,
    splitCharList_single '\n' _ hnl]
  simp only [List.enum, List.enumFrom, List.foldl_cons, List.foldl_nil, hat, if_true, hcap]
  have haB2 : digitsToNat a < 2147483648 := haB
  have hbB2 : digitsToNat b < 2147483648 := hbB
  rcases oc with _ | l <;> rcases nc with _ | m
  · simp [parseI32, haB2, hbB2]
  · have hmB : digitsToNat m < 2147483648 := (hnc m rfl).2.2
    simp [parseI32, haB2, hbB2, hmB]
  · have hlB : digitsToNat l < 2147483648 := (hoc l rfl).2.2
    simp [parseI32, haB2, hbB2, hlB]
  · have hlB : digitsToNat l < 2147483648 := (hoc l rfl).2.2
    have hmB : digitsToNat m < 2147483648 := (hnc m rfl).2.2
    simp [parseI32, haB2, hbB2, hlB, hmB]

/-- Concrete instantiation of C8 on "@@ -3,5 +7 @@": the present old count
is taken verbatim and the omitted new count defaults to 1. -/
theorem parseHunks_count_defaults_witness :
    parseHunks "@@ -3,5 +7 @@" =
      [{ old_start := 3, old_count := 5, new_start := 7, new_count := 1,
         lines := ["@@ -3,5 +7 @@"], line_start := 0 }] := by
  have h := parseHunks_count_defaults ['3'] ['7'] (some ['5']) none
    (by decide) (by decide) (by decide) (by decide) (by decide) (by decide)
    (by intro l hl; cases hl; exact ⟨by decide, by decide, by decide⟩)
    (by intro l hl; cases hl)
  rw [show ("@@ -3,5 +7 @@" : String) = String.mk (mkHunkHeader ['3'] (some ['5']) ['7'] none)
    from rfl]
  rw [h]
  decide

/-- C3 counterexample: in the textual get_diff path, a parentless (root)
commit with a new 3-line file yields a degraded hunk-less response whose
text does not carry the `--- /dev/null` header, and even with a resolvable
parent the synthesized hunk for a new 3-line file (with trailing newline)
has new_count 4, the `split('\n')` piece count, not the line count 3. -/
theorem getDiff_added_counterexample :
    (getDiffRef "notes.txt"
        { parentRef := none, inParent := false, inCurrent := true,
          showCurrent := "a\nb\nc\n", showParent := "", diffOut := "" }).hunks.length ≠ 1
    ∧ (getDiffRef "notes.txt"
        { parentRef := none, inParent := false, inCurrent := true,
          showCurrent := "a\nb\nc\n", showParent := "", diffOut := "" }).diff
        = "+ a\n+ b\n+ c\n+ "
    ∧ ((getDiffRef "notes.txt"
        { parentRef := some "p", inParent := false, inCurrent := true,
          showCurrent := "a\nb\nc\n", showParent := "", diffOut := "" }).hunks.map
          (fun h => h.new_count)) = [4] := by
  refine ⟨by decide, rfl, by decide⟩

/-- C3 (amended): in the structured engine get_file_diff, the diff of a
file absent in the parent and present in the commit (including a commit
with no parent) starts with `--- /dev/null` then `+++ b/<path>` and has
exactly one hunk with old_start=0, old_count=0, new_start=1 and new_count
the file's line count, every source line prefixed `+` (for a new 3-line
file, new_count=3); in the textual get_diff path the same header and hunk
shape appear only when the commit's parent resolves, with new_count the
number of newline-split pieces of the blob (4 for a 3-line file ending in
newline), while a parentless commit yields a degraded hunk-less
all-additions response. -/
theorem fileDiffAdded_amended :
    (∀ filePath content : String,
      (∃ rest, (getFileDiffAdded filePath content).diff =
          "--- /dev/null\n+++ b/" ++ filePath ++ ("\n" ++ rest))
      ∧ (getFileDiffAdded filePath content).hunks =
          [{ old_start := 0, old_count := 0, new_start := 1,
             new_count := ((rustLines content).length : Int),
             lines := ("@@ -0,0 +1," ++ toString (rustLines content).length ++ " @@")
               :: (rustLines content).map (fun l => "+" ++ l) }])
    ∧ getFileDiffAdded "notes.txt" "a\nb\nc\n" =
        { diff := "--- /dev/null\n+++ b/notes.txt\n@@ -0,0 +1,3 @@\n+a\n+b\n+c\n",
          hunks := [{ old_start := 0, old_count := 0, new_start := 1, new_count := 3,
                      lines := ["@@ -0,0 +1,3 @@", "+a", "+b", "+c"] }],
          file_path := "notes.txt" }
    ∧ getDiffRef "notes.txt"
        { parentRef := some "p", inParent := false, inCurrent := true,
          showCurrent := "a\nb\nc\n", showParent := "", diffOut := "" } =
        { diff := "--- /dev/null\n+++ b/notes.txt\n@@ -0,0 +1,4 @@\n+a\n+b\n+c\n+\n",
          hunks := [{ old_start := 0, old_count := 0, new_start := 1, new_count := 4,
                      lines := ["@@ -0,0 +1,4 @@", "+a", "+b", "+c", "+", ""],
                      line_start := 2 }],
          file_path := "notes.txt" } := by
  refine ⟨fun filePath content => ⟨⟨("@@ -0,0 +1," ++ toString (rustLines content).length
    ++ " @@" ++ "\n") ++ String.join ((rustLines content).map (fun l => "+" ++ l ++ "\n")),
    ?_⟩, rfl⟩, by decide, by decide⟩
  simp only [getFileDiffAdded, strAppend_assoc]

/-! ### Branch order and fingerprint lemmas -/

/-- The sorted rearrangement is invariant under permutation of the input. -/
theorem sortBranches_eq_of_perm {l1 l2 : List String} (h : l1.Perm l2) :
    sortBranches l1 = sortBranches l2 :=
  List.eq_of_perm_of_sorted
    ((List.perm_insertionSort bLE l1).trans (h.trans (List.perm_insertionSort bLE l2).symm))
    (List.sorted_insertionSort bLE l1) (List.sorted_insertionSort bLE l2)

/-- Every pair contributes at least its name terminator to the hash
stream. -/
theorem encodePair_length_pos (p : String × Option String) :
    0 < (encodePair p).length := by
  rcases p with ⟨n, _ | o⟩ <;> simp [encodePair, encodeStr]

/-- The hash contribution of a string determines the string. -/
theorem encodeStr_inj {s t : String} (h : encodeStr s = encodeStr t) : s = t := by
  unfold encodeStr at h
  have hlen : s.data.length = t.data.length := by
    have := congrArg List.length h
    simpa using this
  have h2 := (List.append_inj h (by simpa using hlen)).1
  have h3 : s.data = t.data := (List.map_injective_iff.mpr (Option.some_injective _)) h2
  cases s; cases t
  exact congrArg String.mk h3

/-- Adjacent deduplication yields a sublist. -/
theorem dedupAdjacent_sublist : ∀ l : List String, List.Sublist (dedupAdjacent l) l
  | [] => by simp [dedupAdjacent]
  | [x] => by simp [dedupAdjacent]
  | x :: y :: rest => by
    simp only [dedupAdjacent]
    split
    · exact (dedupAdjacent_sublist (y :: rest)).cons x
    · exact (dedupAdjacent_sublist (y :: rest)).cons₂ x

/-- Adjacent deduplication preserves sortedness. -/
theorem dedupAdjacent_sorted {l : List String} (h : List.Pairwise bLE l) :
    List.Pairwise bLE (dedupAdjacent l) :=
  List.Pairwise.sublist (dedupAdjacent_sublist l) h

/-- On a sorted list, adjacent deduplication removes all duplicates. -/
theorem dedupAdjacent_nodup : ∀ l : List String,
    List.Pairwise bLE l → (dedupAdjacent l).Nodup
  | [], _ => by simp [dedupAdjacent]
  | [x], _ => by simp [dedupAdjacent]
  | x :: y :: rest, h => by
    have htail : List.Pairwise bLE (y :: rest) := (List.pairwise_cons.mp h).2
    simp only [dedupAdjacent]
    split
    · exact dedupAdjacent_nodup (y :: rest) htail
    · rename_i hxy
      refine List.nodup_cons.mpr ⟨?_, dedupAdjacent_nodup (y :: rest) htail⟩
      intro hmem
      have hmem2 : x ∈ y :: rest := (dedupAdjacent_sublist (y :: rest)).subset hmem
      rcases List.mem_cons.mp hmem2 with rfl | hmem3
      · exact hxy rfl
      · have h1 : bLE x y := (List.pairwise_cons.mp h).1 y (List.mem_cons_self y rest)
        have h2 : bLE y x := (List.pairwise_cons.mp htail).1 x hmem3
        exact hxy (antisymm h1 h2)

/-- C1: the refs fingerprint (modelled as the DefaultHasher input stream)
is invariant under any reordering of the branch list; it changes whenever a
`(name, resolved id)` pair is added or removed or a pair's resolved id
changes; and a branch whose id failed to resolve still participates via its
name alone. -/
theorem refsFingerprint_props :
    (∀ (names1 names2 : List String) (resolve : String → Option String),
      names1.Perm names2 → refsFingerprint names1 resolve = refsFingerprint names2 resolve)
    ∧ (∀ (pre post : List (String × Option String)) (p : String × Option String),
        refsHashStream (pre ++ p :: post) ≠ refsHashStream (pre ++ post))
    ∧ (∀ (pre post : List (String × Option String)) (n : String) (o1 o2 : Option String),
        o1 ≠ o2 →
          refsHashStream (pre ++ (n, o1) :: post) ≠ refsHashStream (pre ++ (n, o2) :: post))
    ∧ (∀ n : String, encodePair (n, none) = encodeStr n) := by
  refine ⟨?_, ?_, ?_, fun n => rfl⟩
  · intro l1 l2 resolve h
    unfold refsFingerprint branchPairs branchesOf
    rw [sortBranches_eq_of_perm h]
  · intro pre post p h
    have hlen := congrArg List.length h
    simp only [refsHashStream, List.map_append, List.map_cons, List.flatten_append,
      List.flatten_cons, List.length_append] at hlen
    have hp := encodePair_length_pos p
    omega
  · intro pre post n o1 o2 hne h
    unfold refsHashStream at h
    simp only [List.map_append, List.map_cons, List.flatten_append, List.flatten_cons] at h
    have h1 := List.append_cancel_left h
    have h2 := List.append_cancel_right h1
    rcases o1 with _ | s1 <;> rcases o2 with _ | s2
    · exact hne rfl
    · have := congrArg List.length h2
      simp [encodePair, encodeStr] at this
    · have := congrArg List.length h2
      simp [encodePair, encodeStr] at this
    · simp only [encodePair] at h2
      have h3 := List.append_cancel_left h2
      exact hne (congrArg some (encodeStr_inj h3))

/-- Concrete instantiation of C1: reordering two branches leaves the
fingerprint unchanged, while dropping a pair or changing a resolved id
changes it. -/
theorem refsFingerprint_props_witness :
    refsFingerprint ["zeta", "main"] (fun _ => none) =
        refsFingerprint ["main", "zeta"] (fun _ => none)
    ∧ refsHashStream [("a", none)] ≠ refsHashStream []
    ∧ refsHashStream [("a", some "x")] ≠ refsHashStream [("a", some "y")] :=
  ⟨refsFingerprint_props.1 ["zeta", "main"] ["main", "zeta"] (fun _ => none) (by decide),
   refsFingerprint_props.2.1 [] [] ("a", none),
   refsFingerprint_props.2.2.1 [] [] "a" (some "x") (some "y") (by decide)⟩

/-- C2: the `branches` list of get_branch_info is sorted by the fixed rank
table {main:0, master:1, develop:2, other:10} with ties broken
lexicographically, and is deduplicated; in particular the input
{"zeta","main","apple","master"} yields ["main","master","apple","zeta"]. -/
theorem branchesOf_sorted_nodup :
    (∀ names : List String, List.Pairwise bLE (branchesOf names))
    ∧ (∀ names : List String, (branchesOf names).Nodup)
    ∧ branchesOf ["zeta", "main", "apple", "master"] = ["main", "master", "apple", "zeta"] := by
  refine ⟨fun names => dedupAdjacent_sorted (List.sorted_insertionSort bLE names),
    fun names => dedupAdjacent_nodup _ (List.sorted_insertionSort bLE names), ?_⟩
  decide

end GitPow
